import Mathlib

/-!
Formal model of the Chaos Game point generator (src/main.cpp).

The generator state, the dedup index and the accumulation buffer are
embedded as Lean structures; the per-iteration body of the main loop is
the function stepGen.  Machine floating point is idealized: the blend
arithmetic of the hot loop is carried out over the rationals, and the
trigonometric vertex placement over the reals.  Random draws are supplied
as an explicit list of natural numbers, mirroring the calls to rand().
-/

namespace ChaosGame

/-- Hash of a point, from hash_point in src/main.cpp:
    x / PRIME_1 + y / PRIME_2 with PRIME_1 = 20011 and PRIME_2 = 24481. -/
def hash_point (x y : ℕ) : ℚ := (x : ℚ) / 20011 + (y : ℚ) / 24481

/-- Static configuration of a run: screen size, vertex count (num_vertices),
    blend fraction (factor) and the polygon vertices. -/
structure Config where
  width : ℕ
  height : ℕ
  numVertices : ℕ
  factor : ℚ
  verts : List (ℕ × ℕ)

/-- Mutable state of the main loop: the current point (last_x_point,
    last_y_point), the accumulated rectangles (rects, coordinates only),
    the keys present in rects_hashmap, and num_rects. -/
structure GameState where
  last : ℕ × ℕ
  rects : List (ℕ × ℕ)
  keys : List ℚ
  numRects : ℕ
  deriving DecidableEq

/-- One axis of the blend: round(last * (1.0 - factor) + vertex * factor),
    stored back into a uint16 coordinate (values stay in range for valid
    configurations, see the boundedness theorems). -/
def nextCoord (last v : ℕ) (f : ℚ) : ℕ :=
  (round ((last : ℚ) * (1 - f) + (v : ℚ) * f)).toNat

/-- The candidate point of one loop iteration: the die roll r picks
    vertex r % num_vertices and both axes are blended independently. -/
def nextPoint (cfg : Config) (st : GameState) (r : ℕ) : ℕ × ℕ :=
  let v := cfg.verts.getD (r % cfg.numVertices) (0, 0)
  (nextCoord st.last.1 v.1 cfg.factor, nextCoord st.last.2 v.2 cfg.factor)

/-- The dedup check of the loop body: if the hash of p is already a key of
    rects_hashmap the state is untouched and true is returned; otherwise
    the key is recorded, num_rects is incremented, p is appended to rects
    and false is returned. -/
def containsOrInsert (st : GameState) (p : ℕ × ℕ) : Bool × GameState :=
  if hash_point p.1 p.2 ∈ st.keys then (true, st)
  else (false,
    { st with
      keys := hash_point p.1 p.2 :: st.keys
      numRects := st.numRects + 1
      rects := st.rects ++ [p] })

/-- One full iteration of the while loop: compute the candidate point,
    run the dedup check, then unconditionally update the current point. -/
def stepGen (cfg : Config) (st : GameState) (r : ℕ) : GameState :=
  let p := nextPoint cfg st r
  { (containsOrInsert st p).2 with last := p }

/-- Initialization before the loop: the first point is drawn as
    rand() % screen_width and rand() % screen_height, pushed into rects,
    and neither hashed nor counted in num_rects. -/
def initState (cfg : Config) (rx ry : ℕ) : GameState :=
  let p := (rx % cfg.width, ry % cfg.height)
  { last := p, rects := [p], keys := [], numRects := 0 }

/-- Running the loop over a list of die rolls. -/
def runGen (cfg : Config) (st : GameState) (rolls : List ℕ) : GameState :=
  rolls.foldl (stepGen cfg) st

/-- Reachability of one state from another by consuming a given list of
    die rolls, as a transition relation of the loop. -/
inductive Reaches (cfg : Config) : GameState → List ℕ → GameState → Prop
  | nil (st : GameState) : Reaches cfg st [] st
  | cons (st : GameState) (r : ℕ) (rs : List ℕ) (st2 : GameState) :
      Reaches cfg (stepGen cfg st r) rs st2 → Reaches cfg st (r :: rs) st2

/-- The factor option handler of the argument loop in src/main.cpp: the
    parsed value replaces the current factor only when it lies strictly
    between 0 and 1, otherwise the current (default) factor is kept. -/
def parse_factor (current v : ℚ) : ℚ :=
  if 0 < v ∧ v < 1 then v else current

/-- Truncation toward zero, the conversion a C++ float-to-unsigned-integer
    assignment performs on the fractional value (defined for all reals;
    the program only ever converts values in (-1, 65536)). -/
noncomputable def ctrunc (x : ℝ) : ℤ :=
  if 0 ≤ x then ⌊x⌋ else -⌊-x⌋

/-- SCREEN_MARGINS from src/main.cpp. -/
def SCREEN_MARGINS : ℝ := 0.05

/-- The angle in degrees of vertex i, from the vertex loop:
    theta = 270 + float(i * 360) / float(num_vertices). -/
noncomputable def vertexTheta (N i : ℕ) : ℝ :=
  270 + ((i * 360 : ℕ) : ℝ) / (N : ℝ)

/-- The real-valued x coordinate of vertex i before integer conversion:
    screen_width/2 + cos(theta*pi/180) * (screen_width * (1.0 - SCREEN_MARGINS) / 2),
    where screen_width/2 is the integer halving of the uint16 width. -/
noncomputable def vertexXR (w N i : ℕ) : ℝ :=
  ((w / 2 : ℕ) : ℝ) +
    Real.cos (vertexTheta N i * Real.pi / 180) * ((w : ℝ) * (1 - SCREEN_MARGINS) / 2)

/-- The real-valued y coordinate of vertex i before integer conversion. -/
noncomputable def vertexYR (h N i : ℕ) : ℝ :=
  ((h / 2 : ℕ) : ℝ) +
    Real.sin (vertexTheta N i * Real.pi / 180) * ((h : ℝ) * (1 - SCREEN_MARGINS) / 2)

/-- The stored x coordinate of vertex i: the real value as assigned into
    the uint16 variable x_point, hence truncated toward zero. -/
noncomputable def vertexX (w N i : ℕ) : ℤ := ctrunc (vertexXR w N i)

/-- The stored y coordinate of vertex i. -/
noncomputable def vertexY (h N i : ℕ) : ℤ := ctrunc (vertexYR h N i)

/-- Spec section 4.1: radius of the inscribed ellipse along a dimension,
    radius = dimension * (1 - margin) / 2. -/
noncomputable def spec_radius (d : ℕ) : ℝ := (d : ℝ) * (1 - SCREEN_MARGINS) / 2

/-- Spec section 4.1: angle of vertex i in radians,
    (270 + i * 360 / N) degrees converted by the factor pi / 180. -/
noncomputable def spec_vertex_angle (N i : ℕ) : ℝ :=
  (270 + (i : ℝ) * 360 / (N : ℝ)) * Real.pi / 180

/-- The x coordinate the claim predicts: the spec formula with the final
    value rounded to the nearest integer pixel. -/
noncomputable def spec_vertex_x_round (w N i : ℕ) : ℤ :=
  round (((w / 2 : ℕ) : ℝ) + Real.cos (spec_vertex_angle N i) * spec_radius w)

/-- The y coordinate the claim predicts under rounding to nearest. -/
noncomputable def spec_vertex_y_round (h N i : ℕ) : ℤ :=
  round (((h / 2 : ℕ) : ℝ) + Real.sin (spec_vertex_angle N i) * spec_radius h)

/-- The spec formula for x with the conversion corrected to truncation
    toward zero, as the code performs it. -/
noncomputable def spec_vertex_x_trunc (w N i : ℕ) : ℤ :=
  ctrunc (((w / 2 : ℕ) : ℝ) + Real.cos (spec_vertex_angle N i) * spec_radius w)

/-- The spec formula for y with the conversion corrected to truncation. -/
noncomputable def spec_vertex_y_trunc (h N i : ℕ) : ℤ :=
  ctrunc (((h / 2 : ℕ) : ℝ) + Real.sin (spec_vertex_angle N i) * spec_radius h)

/-- The configuration the program builds for given command line values:
    the vertex list is computed by the vertex loop. -/
noncomputable def mkConfig (w h N : ℕ) (f : ℚ) : Config :=
  ⟨w, h, N, f,
    (List.range N).map fun i => ((vertexX w N i).toNat, (vertexY h N i).toNat)⟩

/-- A concrete valid configuration used to instantiate theorems:
    the default 1000 x 1000 screen, 3 vertices, factor 1/2, and the
    vertex coordinates the program computes for that screen. -/
def exampleConfig : Config :=
  ⟨1000, 1000, 3, 1/2, [(500, 25), (911, 737), (88, 737)]⟩

/-! ### Arithmetic helper lemmas -/

theorem round_mono_q {a b : ℚ} (h : a ≤ b) : round a ≤ round b := by
  rw [round_eq, round_eq]
  exact Int.floor_le_floor (by linarith)

theorem nextCoord_nonneg_expr {a b : ℕ} {f : ℚ} (hf0 : 0 ≤ f) (hf1 : f ≤ 1) :
    (0 : ℚ) ≤ (a : ℚ) * (1 - f) + (b : ℚ) * f :=
  add_nonneg (mul_nonneg (Nat.cast_nonneg a) (by linarith))
    (mul_nonneg (Nat.cast_nonneg b) hf0)

theorem nextCoord_lt {a b w : ℕ} {f : ℚ} (ha : a < w) (hb : b < w)
    (hf0 : 0 ≤ f) (hf1 : f ≤ 1) : nextCoord a b f < w := by
  have haq : (a : ℚ) ≤ (w : ℚ) - 1 := by
    have h1 : (a : ℚ) + 1 ≤ (w : ℚ) := by exact_mod_cast Nat.succ_le_of_lt ha
    linarith
  have hbq : (b : ℚ) ≤ (w : ℚ) - 1 := by
    have h1 : (b : ℚ) + 1 ≤ (w : ℚ) := by exact_mod_cast Nat.succ_le_of_lt hb
    linarith
  have k1 : (0 : ℚ) ≤ ((w : ℚ) - 1 - a) * (1 - f) :=
    mul_nonneg (by linarith) (by linarith)
  have k2 : (0 : ℚ) ≤ ((w : ℚ) - 1 - b) * f := mul_nonneg (by linarith) hf0
  have hle : (a : ℚ) * (1 - f) + (b : ℚ) * f ≤ (w : ℚ) - 1 := by nlinarith
  have hr1 : round ((a : ℚ) * (1 - f) + (b : ℚ) * f) ≤ (w : ℤ) - 1 := by
    have h2 := round_mono_q hle
    rwa [show ((w : ℚ) - 1) = (((w : ℤ) - 1 : ℤ) : ℚ) by push_cast; ring,
      round_intCast] at h2
  have hr0 : 0 ≤ round ((a : ℚ) * (1 - f) + (b : ℚ) * f) := by
    have h2 := round_mono_q (nextCoord_nonneg_expr hf0 hf1 (a := a) (b := b))
    rwa [round_zero] at h2
  unfold nextCoord
  omega

theorem ctrunc_mem {x : ℝ} {n : ℕ} (hn : 0 < n) (h1 : -1 < x) (h2 : x < n) :
    0 ≤ ctrunc x ∧ ctrunc x < (n : ℤ) := by
  unfold ctrunc
  by_cases h0 : 0 ≤ x
  · rw [if_pos h0]
    refine ⟨Int.floor_nonneg.mpr h0, Int.floor_lt.mpr ?_⟩
    exact_mod_cast h2
  · rw [if_neg h0]
    push_neg at h0
    have hfz : ⌊-x⌋ = 0 := Int.floor_eq_zero_iff.mpr ⟨by linarith, by linarith⟩
    rw [hfz]
    refine ⟨by norm_num, ?_⟩
    norm_num
    exact_mod_cast hn

theorem trig_vertex_bounds {c : ℝ} (hc1 : -1 ≤ c) (hc2 : c ≤ 1) {d : ℕ}
    (hd : 0 < d) :
    -1 < ((d / 2 : ℕ) : ℝ) + c * ((d : ℝ) * (1 - SCREEN_MARGINS) / 2) ∧
      ((d / 2 : ℕ) : ℝ) + c * ((d : ℝ) * (1 - SCREEN_MARGINS) / 2) < d := by
  have hS : (1 - SCREEN_MARGINS : ℝ) = 19 / 20 := by norm_num [SCREEN_MARGINS]
  rw [hS]
  have hdr : (0 : ℝ) < (d : ℝ) := by exact_mod_cast hd
  have hR : (0 : ℝ) ≤ (d : ℝ) * (19 / 20) / 2 := by positivity
  have hub : c * ((d : ℝ) * (19 / 20) / 2) ≤ (d : ℝ) * (19 / 20) / 2 := by
    nlinarith
  have hlb : -((d : ℝ) * (19 / 20) / 2) ≤ c * ((d : ℝ) * (19 / 20) / 2) := by
    nlinarith
  have hhalf_le : ((d / 2 : ℕ) : ℝ) ≤ (d : ℝ) / 2 := Nat.cast_div_le
  have hhalf_ge : ((d : ℝ) - 1) / 2 ≤ ((d / 2 : ℕ) : ℝ) := by
    have hmod : d ≤ 2 * (d / 2) + 1 := by omega
    have hcast : (d : ℝ) ≤ 2 * ((d / 2 : ℕ) : ℝ) + 1 := by exact_mod_cast hmod
    linarith
  constructor
  · linarith
  · linarith

theorem vertexX_bounds (w N i : ℕ) (hw : 0 < w) :
    0 ≤ vertexX w N i ∧ vertexX w N i < (w : ℤ) := by
  have hb := trig_vertex_bounds (Real.neg_one_le_cos (vertexTheta N i * Real.pi / 180))
    (Real.cos_le_one (vertexTheta N i * Real.pi / 180)) hw
  exact ctrunc_mem hw hb.1 hb.2

theorem vertexY_bounds (h N i : ℕ) (hh : 0 < h) :
    0 ≤ vertexY h N i ∧ vertexY h N i < (h : ℤ) := by
  have hb := trig_vertex_bounds (Real.neg_one_le_sin (vertexTheta N i * Real.pi / 180))
    (Real.sin_le_one (vertexTheta N i * Real.pi / 180)) hh
  exact ctrunc_mem hh hb.1 hb.2

/-! ### Reachability helpers -/

theorem reaches_runGen (cfg : Config) (st : GameState) (rolls : List ℕ) :
    Reaches cfg st rolls (runGen cfg st rolls) := by
  induction rolls generalizing st with
  | nil => exact Reaches.nil st
  | cons r rs ih => exact Reaches.cons st r rs _ (ih (stepGen cfg st r))

theorem reaches_eq_runGen {cfg : Config} {st st2 : GameState} {rolls : List ℕ}
    (h : Reaches cfg st rolls st2) : st2 = runGen cfg st rolls := by
  induction h with
  | nil st => rfl
  | cons st r rs st2 h ih => exact ih

theorem reaches_preserve {cfg : Config} {P : GameState → Prop}
    (hstep : ∀ st r, P st → P (stepGen cfg st r)) :
    ∀ {st rolls st2}, Reaches cfg st rolls st2 → P st → P st2 := by
  intro st rolls st2 h
  induction h with
  | nil st => exact id
  | cons st r rs st2 h ih => exact fun hp => ih (hstep st r hp)

/-! ### Invariants of the loop state -/

/-- Bookkeeping invariant: rects holds the initial point followed by the
    loop-accepted points, num_rects counts only the latter, and the keys
    of the hashmap are exactly the hashes of the loop-accepted points. -/
def InvKeys (p0 : ℕ × ℕ) (st : GameState) : Prop :=
  st.rects.length = st.numRects + 1 ∧
    ∃ t, st.rects = p0 :: t ∧
      ∀ k, k ∈ st.keys ↔ ∃ p ∈ t, hash_point p.1 p.2 = k

/-- Boundedness invariant: the current point and all accumulated points
    lie inside the screen. -/
def InvBounds (cfg : Config) (st : GameState) : Prop :=
  (st.last.1 < cfg.width ∧ st.last.2 < cfg.height) ∧
    ∀ p ∈ st.rects, p.1 < cfg.width ∧ p.2 < cfg.height

theorem invKeys_init (cfg : Config) (rx ry : ℕ) :
    InvKeys (rx % cfg.width, ry % cfg.height) (initState cfg rx ry) := by
  refine ⟨by simp [initState], [], by simp [initState], ?_⟩
  intro k
  simp [initState]

theorem containsOrInsert_pos (st : GameState) (p : ℕ × ℕ)
    (h : hash_point p.1 p.2 ∈ st.keys) : containsOrInsert st p = (true, st) := by
  simp [containsOrInsert, h]

theorem containsOrInsert_neg (st : GameState) (p : ℕ × ℕ)
    (h : hash_point p.1 p.2 ∉ st.keys) :
    containsOrInsert st p = (false,
      { st with
        keys := hash_point p.1 p.2 :: st.keys
        numRects := st.numRects + 1
        rects := st.rects ++ [p] }) := by
  simp [containsOrInsert, h]

theorem stepGen_eq (cfg : Config) (st : GameState) (r : ℕ) :
    stepGen cfg st r =
      { (containsOrInsert st (nextPoint cfg st r)).2 with
        last := nextPoint cfg st r } := rfl

theorem invKeys_step {p0 : ℕ × ℕ} (cfg : Config) (st : GameState) (r : ℕ)
    (h : InvKeys p0 st) : InvKeys p0 (stepGen cfg st r) := by
  obtain ⟨hlen, t, ht, hkeys⟩ := h
  by_cases hm : hash_point (nextPoint cfg st r).1 (nextPoint cfg st r).2 ∈ st.keys
  · rw [stepGen_eq, containsOrInsert_pos st _ hm]
    exact ⟨hlen, t, ht, hkeys⟩
  · rw [stepGen_eq, containsOrInsert_neg st _ hm]
    refine ⟨?_, t ++ [nextPoint cfg st r], ?_, ?_⟩
    · show (st.rects ++ [nextPoint cfg st r]).length = (st.numRects + 1) + 1
      simp [hlen]
    · show st.rects ++ [nextPoint cfg st r] = p0 :: (t ++ [nextPoint cfg st r])
      rw [ht]
      rfl
    · intro k
      show k ∈ hash_point (nextPoint cfg st r).1 (nextPoint cfg st r).2 :: st.keys ↔ _
      rw [List.mem_cons, hkeys k]
      constructor
      · rintro (rfl | ⟨p, hp, rfl⟩)
        · exact ⟨nextPoint cfg st r, by simp, rfl⟩
        · exact ⟨p, by simp [hp], rfl⟩
      · rintro ⟨p, hp, rfl⟩
        rcases List.mem_append.mp hp with hp2 | hp2
        · exact Or.inr ⟨p, hp2, rfl⟩
        · rw [List.mem_singleton] at hp2
          subst hp2
          exact Or.inl rfl

theorem getD_mem_or_default {α : Type} (l : List α) (n : ℕ) (d : α) :
    l.getD n d ∈ l ∨ l.getD n d = d := by
  induction l generalizing n with
  | nil => right; simp
  | cons a as ih =>
    cases n with
    | zero => left; simp
    | succ m =>
      rcases ih m with h | h
      · left; simpa using Or.inr h
      · right; simpa using h

theorem nextPoint_bounds (cfg : Config) (st : GameState) (r : ℕ)
    (hw : 0 < cfg.width) (hh : 0 < cfg.height)
    (hverts : ∀ p ∈ cfg.verts, p.1 < cfg.width ∧ p.2 < cfg.height)
    (hf0 : 0 ≤ cfg.factor) (hf1 : cfg.factor ≤ 1)
    (hlast : st.last.1 < cfg.width ∧ st.last.2 < cfg.height) :
    (nextPoint cfg st r).1 < cfg.width ∧ (nextPoint cfg st r).2 < cfg.height := by
  have hv : (cfg.verts.getD (r % cfg.numVertices) (0, 0)).1 < cfg.width ∧
      (cfg.verts.getD (r % cfg.numVertices) (0, 0)).2 < cfg.height := by
    rcases getD_mem_or_default cfg.verts (r % cfg.numVertices) (0, 0) with h | h
    · exact hverts _ h
    · rw [h]; exact ⟨hw, hh⟩
  exact ⟨nextCoord_lt hlast.1 hv.1 hf0 hf1, nextCoord_lt hlast.2 hv.2 hf0 hf1⟩

theorem invBounds_init (cfg : Config) (rx ry : ℕ) (hw : 0 < cfg.width)
    (hh : 0 < cfg.height) : InvBounds cfg (initState cfg rx ry) := by
  refine ⟨⟨Nat.mod_lt rx hw, Nat.mod_lt ry hh⟩, ?_⟩
  intro p hp
  simp only [initState, List.mem_singleton] at hp
  rw [hp]
  exact ⟨Nat.mod_lt rx hw, Nat.mod_lt ry hh⟩

theorem invBounds_step (cfg : Config) (st : GameState) (r : ℕ)
    (hw : 0 < cfg.width) (hh : 0 < cfg.height)
    (hverts : ∀ p ∈ cfg.verts, p.1 < cfg.width ∧ p.2 < cfg.height)
    (hf0 : 0 ≤ cfg.factor) (hf1 : cfg.factor ≤ 1)
    (h : InvBounds cfg st) : InvBounds cfg (stepGen cfg st r) := by
  obtain ⟨hlast, hrects⟩ := h
  have hp := nextPoint_bounds cfg st r hw hh hverts hf0 hf1 hlast
  by_cases hm : hash_point (nextPoint cfg st r).1 (nextPoint cfg st r).2 ∈ st.keys
  · refine ⟨?_, ?_⟩
    · simpa [stepGen, containsOrInsert, hm] using hp
    · intro p hpm
      simp only [stepGen, containsOrInsert, if_pos hm] at hpm
      exact hrects p hpm
  · refine ⟨?_, ?_⟩
    · simpa [stepGen, containsOrInsert, hm] using hp
    · intro p hpm
      simp only [stepGen, containsOrInsert, if_neg hm, List.mem_append,
        List.mem_singleton] at hpm
      rcases hpm with hpm | rfl
      · exact hrects p hpm
      · exact hp

/-- The hash key is injective while both x coordinates are below 20011;
    in particular no collisions occur on screens at most 20011 wide. -/
theorem hash_point_inj {x y x2 y2 : ℕ} (hx : x < 20011) (hx2 : x2 < 20011)
    (h : hash_point x y = hash_point x2 y2) : x = x2 ∧ y = y2 := by
  unfold hash_point at h
  have h4 : (24481 : ℚ) * x + 20011 * y = 24481 * x2 + 20011 * y2 := by
    field_simp at h
    linarith
  have h5 : (24481 : ℤ) * x + 20011 * y = 24481 * x2 + 20011 * y2 := by
    exact_mod_cast h4
  clear h h4
  have hdvd : (20011 : ℤ) ∣ 24481 * ((x : ℤ) - x2) := ⟨(y2 : ℤ) - y, by linarith⟩
  have hco : IsCoprime (20011 : ℤ) 24481 := by
    rw [Int.isCoprime_iff_gcd_eq_one]
    norm_num
  have hdx : (20011 : ℤ) ∣ ((x : ℤ) - x2) := hco.dvd_of_dvd_mul_left hdvd
  have hxz : (x : ℤ) < 20011 := by exact_mod_cast hx
  have hx2z : (x2 : ℤ) < 20011 := by exact_mod_cast hx2
  have hxnn : (0 : ℤ) ≤ (x : ℤ) := Int.ofNat_nonneg x
  have hx2nn : (0 : ℤ) ≤ (x2 : ℤ) := Int.ofNat_nonneg x2
  have habs : |(x : ℤ) - x2| < 20011 := by
    rw [abs_lt]
    constructor <;> linarith
  have hxx : (x : ℤ) - x2 = 0 := Int.eq_zero_of_abs_lt_dvd hdx habs
  have hx0 : (x : ℤ) = x2 := by linarith
  rw [hx0] at h5
  have hy0 : (y : ℤ) = y2 := by linarith
  exact ⟨Nat.cast_inj.mp hx0, Nat.cast_inj.mp hy0⟩

theorem keys_mono_step (cfg : Config) (st : GameState) (r : ℕ) {k : ℚ}
    (h : k ∈ st.keys) : k ∈ (stepGen cfg st r).keys := by
  by_cases hm : hash_point (nextPoint cfg st r).1 (nextPoint cfg st r).2 ∈ st.keys
  · rw [stepGen_eq, containsOrInsert_pos st _ hm]
    exact h
  · rw [stepGen_eq, containsOrInsert_neg st _ hm]
    exact List.mem_cons_of_mem _ h

theorem keys_mono_run (cfg : Config) (st : GameState) (rolls : List ℕ) {k : ℚ}
    (h : k ∈ st.keys) : k ∈ (runGen cfg st rolls).keys :=
  reaches_preserve (P := fun s => k ∈ s.keys)
    (fun st r hp => keys_mono_step cfg st r hp) (reaches_runGen cfg st rolls) h

theorem rects_prefix_step (cfg : Config) (st : GameState) (r : ℕ) :
    ∃ u, (stepGen cfg st r).rects = st.rects ++ u := by
  by_cases hm : hash_point (nextPoint cfg st r).1 (nextPoint cfg st r).2 ∈ st.keys
  · rw [stepGen_eq, containsOrInsert_pos st _ hm]
    exact ⟨[], by simp⟩
  · rw [stepGen_eq, containsOrInsert_neg st _ hm]
    exact ⟨[nextPoint cfg st r], rfl⟩

theorem rects_prefix_run (cfg : Config) (st : GameState) (rolls : List ℕ) :
    ∃ t, (runGen cfg st rolls).rects = st.rects ++ t := by
  induction rolls generalizing st with
  | nil => exact ⟨[], by simp [runGen]⟩
  | cons r rs ih =>
    obtain ⟨t, ht⟩ := ih (stepGen cfg st r)
    obtain ⟨u, hu⟩ := rects_prefix_step cfg st r
    refine ⟨u ++ t, ?_⟩
    have hrun : runGen cfg st (r :: rs) = runGen cfg (stepGen cfg st r) rs := rfl
    rw [hrun, ht, hu, List.append_assoc]

/-! ### Claim theorems -/

/-- Claim C2: for a fixed sequence of die rolls and a valid configuration
    (3 to 255 vertices, fraction strictly between 0 and 1), two runs of the
    generation loop from the same state end in the same state and produce
    the same sequence of accumulated points. -/
theorem run_deterministic (cfg : Config) (hN3 : 3 ≤ cfg.numVertices)
    (hN255 : cfg.numVertices ≤ 255) (hf0 : 0 < cfg.factor)
    (hf1 : cfg.factor < 1) (st s1 s2 : GameState) (rolls : List ℕ)
    (h1 : Reaches cfg st rolls s1) (h2 : Reaches cfg st rolls s2) :
    s1 = s2 ∧ s1.rects = s2.rects := by
  have e1 := reaches_eq_runGen h1
  have e2 := reaches_eq_runGen h2
  rw [e1, e2]
  exact ⟨rfl, rfl⟩

/-- Witness for C2 at a concrete configuration and roll sequence. -/
theorem run_deterministic_witness :
    3 ≤ exampleConfig.numVertices ∧
      runGen exampleConfig (initState exampleConfig 0 0) [0, 1, 2] =
        runGen exampleConfig (initState exampleConfig 0 0) [0, 1, 2] :=
  ⟨by decide,
    (run_deterministic exampleConfig (by decide) (by decide)
      (by norm_num [exampleConfig]) (by norm_num [exampleConfig])
      (initState exampleConfig 0 0) _ _ [0, 1, 2]
      (reaches_runGen _ _ _) (reaches_runGen _ _ _)).1⟩

/-- Claim C3: a contains_or_insert call whose derived key is absent returns
    false and records the key; once the key is present it stays present for
    the rest of the run, and any call with the same exact pair then returns
    true and leaves the state, hence the buffer length, unchanged. -/
theorem contains_or_insert_dedup (st : GameState) (p : ℕ × ℕ) :
    (hash_point p.1 p.2 ∉ st.keys →
      (containsOrInsert st p).1 = false ∧
        hash_point p.1 p.2 ∈ (containsOrInsert st p).2.keys) ∧
    (hash_point p.1 p.2 ∈ st.keys →
      (containsOrInsert st p).1 = true ∧ (containsOrInsert st p).2 = st ∧
        (containsOrInsert st p).2.rects.length = st.rects.length) ∧
    (∀ cfg rolls, hash_point p.1 p.2 ∈ st.keys →
      hash_point p.1 p.2 ∈ (runGen cfg st rolls).keys) := by
  refine ⟨?_, ?_, ?_⟩
  · intro hm
    rw [containsOrInsert_neg st p hm]
    exact ⟨rfl, List.mem_cons_self _ _⟩
  · intro hm
    rw [containsOrInsert_pos st p hm]
    exact ⟨rfl, rfl, rfl⟩
  · intro cfg rolls hm
    exact keys_mono_run cfg st rolls hm

/-- Witness for C3: inserting a fresh point into the freshly initialized
    state returns false and records its key. -/
theorem contains_or_insert_dedup_witness :
    (containsOrInsert (initState exampleConfig 0 0) (5, 6)).1 = false ∧
      hash_point 5 6 ∈ (containsOrInsert (initState exampleConfig 0 0) (5, 6)).2.keys :=
  (contains_or_insert_dedup (initState exampleConfig 0 0) (5, 6)).1
    (by simp [initState])

/-- Claim C4: the buffer length grows by exactly 1 on a contains_or_insert
    call returning false and by 0 on a call returning true, and across a
    whole run the buffer is only ever extended, never shrunk. -/
theorem buffer_monotone (st : GameState) (p : ℕ × ℕ) (cfg : Config)
    (st2 : GameState) (rolls : List ℕ) :
    (containsOrInsert st p).2.rects.length =
        st.rects.length + (if (containsOrInsert st p).1 = true then 0 else 1) ∧
      ∃ t, (runGen cfg st2 rolls).rects = st2.rects ++ t := by
  constructor
  · by_cases hm : hash_point p.1 p.2 ∈ st.keys
    · rw [containsOrInsert_pos st p hm]
      simp
    · rw [containsOrInsert_neg st p hm]
      simp
  · exact rects_prefix_run cfg st2 rolls

/-- Claim C7: the factor option handler rejects f = 0 and f = 1, keeping
    the current value, so a generator configured through it never runs
    with a degenerate fraction. -/
theorem factor_rejection (cur : ℚ) :
    parse_factor cur 0 = cur ∧ parse_factor cur 1 = cur ∧
      ∀ v, 0 < cur → cur < 1 → 0 < parse_factor cur v ∧ parse_factor cur v < 1 := by
  refine ⟨by norm_num [parse_factor], by norm_num [parse_factor], ?_⟩
  intro v h0 h1
  unfold parse_factor
  by_cases h : 0 < v ∧ v < 1
  · rw [if_pos h]
    exact h
  · rw [if_neg h]
    exact ⟨h0, h1⟩

/-- Witness for C7 at the default factor 1/2 and the rejected inputs 0, 1. -/
theorem factor_rejection_witness :
    parse_factor (1/2) 0 = 1/2 ∧ 0 < parse_factor (1/2) 1 ∧
      parse_factor (1/2) 1 < 1 :=
  ⟨(factor_rejection (1/2)).1,
    ((factor_rejection (1/2)).2.2 1 (by norm_num) (by norm_num)).1,
    ((factor_rejection (1/2)).2.2 1 (by norm_num) (by norm_num)).2⟩

/-- Claim C8: each step draws the vertex index r % num_vertices (always in
    range), blends each axis as round(current * (1 - f) + vertex * f), and
    stores the result as the new current point in both the duplicate and
    the novel branch; the buffer either stays unchanged or receives exactly
    the new point. -/
theorem step_updates_current (cfg : Config) (st : GameState) (r : ℕ)
    (hN : 0 < cfg.numVertices) :
    r % cfg.numVertices < cfg.numVertices ∧
    (stepGen cfg st r).last =
      ((round ((st.last.1 : ℚ) * (1 - cfg.factor) +
          ((cfg.verts.getD (r % cfg.numVertices) (0, 0)).1 : ℚ) * cfg.factor)).toNat,
       (round ((st.last.2 : ℚ) * (1 - cfg.factor) +
          ((cfg.verts.getD (r % cfg.numVertices) (0, 0)).2 : ℚ) * cfg.factor)).toNat) ∧
    ((stepGen cfg st r).rects = st.rects ∨
      (stepGen cfg st r).rects = st.rects ++ [(stepGen cfg st r).last]) := by
  refine ⟨Nat.mod_lt r hN, rfl, ?_⟩
  by_cases hm : hash_point (nextPoint cfg st r).1 (nextPoint cfg st r).2 ∈ st.keys
  · left
    rw [stepGen_eq, containsOrInsert_pos st _ hm]
  · right
    rw [stepGen_eq, containsOrInsert_neg st _ hm]

/-- Witness for C8: the drawn index is in range for the concrete config. -/
theorem step_updates_current_witness :
    0 % exampleConfig.numVertices < exampleConfig.numVertices :=
  (step_updates_current exampleConfig (initState exampleConfig 0 0) 0 (by decide)).1

theorem ctrunc_natCast (n : ℕ) : ctrunc ((n : ℕ) : ℝ) = n := by
  unfold ctrunc
  rw [if_pos (Nat.cast_nonneg n), Int.floor_natCast]

/-- Claim C1: the vertices are in bounds, the initial point is in bounds,
    and every point reached by the generation loop, current point and
    accumulated points alike, stays inside [0, width) x [0, height). -/
theorem generated_points_in_bounds (w h N : ℕ) (f : ℚ) (rx ry : ℕ)
    (hw : 0 < w) (hh : 0 < h) (hN : 0 < N) (hf0 : 0 < f) (hf1 : f < 1) :
    (∀ i, 0 ≤ vertexX w N i ∧ vertexX w N i < (w : ℤ) ∧
        0 ≤ vertexY h N i ∧ vertexY h N i < (h : ℤ)) ∧
    ((initState (mkConfig w h N f) rx ry).last.1 < w ∧
      (initState (mkConfig w h N f) rx ry).last.2 < h) ∧
    (∀ rolls st,
      Reaches (mkConfig w h N f) (initState (mkConfig w h N f) rx ry) rolls st →
        (st.last.1 < w ∧ st.last.2 < h) ∧ ∀ p ∈ st.rects, p.1 < w ∧ p.2 < h) := by
  have hvb : ∀ p ∈ (mkConfig w h N f).verts, p.1 < w ∧ p.2 < h := by
    intro p hp
    simp only [mkConfig, List.mem_map, List.mem_range] at hp
    obtain ⟨i, hi, rfl⟩ := hp
    obtain ⟨hx0, hx1⟩ := vertexX_bounds w N i hw
    obtain ⟨hy0, hy1⟩ := vertexY_bounds h N i hh
    constructor
    · omega
    · omega
  refine ⟨?_, ?_, ?_⟩
  · intro i
    obtain ⟨hx0, hx1⟩ := vertexX_bounds w N i hw
    obtain ⟨hy0, hy1⟩ := vertexY_bounds h N i hh
    exact ⟨hx0, hx1, hy0, hy1⟩
  · exact ⟨Nat.mod_lt rx hw, Nat.mod_lt ry hh⟩
  · intro rolls st hre
    exact reaches_preserve (P := InvBounds (mkConfig w h N f))
      (fun s r hp => invBounds_step (mkConfig w h N f) s r hw hh hvb
        (le_of_lt hf0) (le_of_lt hf1) hp)
      hre (invBounds_init (mkConfig w h N f) rx ry hw hh)

/-- Witness for C1 at the default configuration. -/
theorem generated_points_in_bounds_witness :
    0 ≤ vertexX 1000 3 0 ∧ vertexX 1000 3 0 < ((1000 : ℕ) : ℤ) ∧
      (initState (mkConfig 1000 1000 3 (1/2)) 7 9).last.1 < 1000 := by
  have h := generated_points_in_bounds 1000 1000 3 (1/2) 7 9 (by norm_num)
    (by norm_num) (by norm_num) (by norm_num) (by norm_num)
  exact ⟨(h.1 0).1, (h.1 0).2.1, h.2.1.1⟩

/-- Claim C9: for N = 4 on a 1000 x 1000 screen with margin 0.05, vertex 0
    sits at the top of the inscribed ellipse, exactly at (500, 25), hence
    within one pixel of the predicted position. -/
theorem vertex_zero_top : vertexX 1000 4 0 = 500 ∧ vertexY 1000 4 0 = 25 := by
  have hth : vertexTheta 4 0 * Real.pi / 180 = Real.pi / 2 + Real.pi := by
    unfold vertexTheta
    push_cast
    ring
  have hcos : Real.cos (vertexTheta 4 0 * Real.pi / 180) = 0 := by
    rw [hth, Real.cos_add, Real.cos_pi_div_two, Real.sin_pi_div_two,
      Real.cos_pi, Real.sin_pi]
    ring
  have hsin : Real.sin (vertexTheta 4 0 * Real.pi / 180) = -1 := by
    rw [hth, Real.sin_add, Real.cos_pi_div_two, Real.sin_pi_div_two,
      Real.cos_pi, Real.sin_pi]
    ring
  constructor
  · unfold vertexX vertexXR
    rw [hcos]
    have hval : ((1000 / 2 : ℕ) : ℝ) +
        0 * (((1000 : ℕ) : ℝ) * (1 - SCREEN_MARGINS) / 2) = ((500 : ℕ) : ℝ) := by
      norm_num
    rw [hval, ctrunc_natCast]
    norm_num
  · unfold vertexY vertexYR
    rw [hsin]
    have hval : ((1000 / 2 : ℕ) : ℝ) +
        (-1) * (((1000 : ℕ) : ℝ) * (1 - SCREEN_MARGINS) / 2) = ((25 : ℕ) : ℝ) := by
      norm_num [SCREEN_MARGINS]
    rw [hval, ctrunc_natCast]
    norm_num

/-- Counterexample for C5: for N = 3 on the default screen, the exact value
    of the y coordinate of vertex 1 is 737.5; the code stores 737 (it
    truncates) while rounding to the nearest pixel as the claim states
    would give 738. -/
theorem vertex_round_cex :
    vertexY 1000 3 1 = 737 ∧ spec_vertex_y_round 1000 3 1 = 738 := by
  have hth : vertexTheta 3 1 * Real.pi / 180 = Real.pi / 6 + 2 * Real.pi := by
    unfold vertexTheta
    push_cast
    ring
  have hsin : Real.sin (vertexTheta 3 1 * Real.pi / 180) = 1 / 2 := by
    rw [hth]
    exact (Real.sin_periodic (Real.pi / 6)).trans Real.sin_pi_div_six
  have harg : spec_vertex_angle 3 1 = vertexTheta 3 1 * Real.pi / 180 := by
    unfold spec_vertex_angle vertexTheta
    push_cast
    ring
  have hval : ((1000 / 2 : ℕ) : ℝ) +
      1 / 2 * (((1000 : ℕ) : ℝ) * (1 - SCREEN_MARGINS) / 2) = (737 : ℝ) + 1 / 2 := by
    norm_num [SCREEN_MARGINS]
  constructor
  · unfold vertexY vertexYR
    rw [hsin, hval]
    unfold ctrunc
    rw [if_pos (by norm_num)]
    rw [Int.floor_eq_iff]
    constructor
    · norm_num
    · norm_num
  · unfold spec_vertex_y_round spec_radius
    rw [harg, hsin, hval, round_eq]
    have h2 : (737 : ℝ) + 1 / 2 + 1 / 2 = ((738 : ℤ) : ℝ) := by norm_num
    rw [h2, Int.floor_intCast]

/-- Amended C5: vertex i is placed at angle 270 + i * 360 / N degrees with
    x = width/2 + cos(theta) * width * (1 - margin) / 2 and
    y = height/2 + sin(theta) * height * (1 - margin) / 2 (width/2 and
    height/2 the integer halves), and each coordinate is truncated toward
    zero to an integer pixel, not rounded to nearest. -/
theorem vertex_formula_spec (w h N i : ℕ) :
    vertexX w N i = spec_vertex_x_trunc w N i ∧
      vertexY h N i = spec_vertex_y_trunc h N i := by
  have harg : vertexTheta N i * Real.pi / 180 = spec_vertex_angle N i := by
    unfold vertexTheta spec_vertex_angle
    push_cast
    ring
  constructor
  · unfold vertexX vertexXR spec_vertex_x_trunc spec_radius
    rw [harg]
  · unfold vertexY vertexYR spec_vertex_y_trunc spec_radius
    rw [harg]

/-- Counterexample for C6: immediately after initialization, a reachable
    moment of every run, the initial point is already in the buffer but its
    key is not in the index, so presence of a key is not equivalent to some
    buffered point hashing to it. -/
theorem dedup_invariant_cex :
    ¬ (∀ k, k ∈ (initState exampleConfig 0 0).keys ↔
        ∃ p ∈ (initState exampleConfig 0 0).rects, hash_point p.1 p.2 = k) := by
  intro hiff
  have h := (hiff (hash_point 0 0)).mpr
    ⟨(0, 0), by simp [initState, exampleConfig], rfl⟩
  simp [initState] at h

/-- Amended C6: at every reachable moment of a run, a key is present in the
    index iff some point appended by the generation loop (every buffer
    entry except the first, initial one) hashes to it; moreover distinct
    points with equal keys exist, such as (20011, 0) and (0, 24481), and
    any point whose key is already present is treated as a duplicate. -/
theorem dedup_key_iff_loop_appended (cfg : Config) (rx ry : ℕ)
    (rolls : List ℕ) (st : GameState)
    (h : Reaches cfg (initState cfg rx ry) rolls st) :
    (∀ k, k ∈ st.keys ↔ ∃ p ∈ st.rects.drop 1, hash_point p.1 p.2 = k) ∧
      hash_point 20011 0 = hash_point 0 24481 ∧
      ((20011, 0) : ℕ × ℕ) ≠ (0, 24481) ∧
      ∀ st2 : GameState, hash_point 20011 0 ∈ st2.keys →
        (containsOrInsert st2 (0, 24481)).1 = true := by
  have hcoll : hash_point 20011 0 = hash_point 0 24481 := by
    unfold hash_point
    norm_num
  obtain ⟨hlen, t, ht, hkeys⟩ :=
    reaches_preserve (P := InvKeys (rx % cfg.width, ry % cfg.height))
      (fun s r hp => invKeys_step cfg s r hp) h (invKeys_init cfg rx ry)
  refine ⟨?_, hcoll, by decide, ?_⟩
  · intro k
    rw [ht]
    simpa using hkeys k
  · intro st2 hm
    refine containsOrInsert_pos st2 (0, 24481) ?_ ▸ rfl
    show hash_point 0 24481 ∈ st2.keys
    rw [← hcoll]
    exact hm

/-- Witness for C6 (amended): the key equivalence holds at the initial
    state of a concrete run, reached by the empty roll sequence. -/
theorem dedup_key_iff_loop_appended_witness :
    hash_point 20011 0 = hash_point 0 24481 :=
  (dedup_key_iff_loop_appended exampleConfig 0 0 [] (initState exampleConfig 0 0)
    (Reaches.nil _)).2.1

theorem runGen_nil (cfg : Config) (st : GameState) : runGen cfg st [] = st := rfl

theorem runGen_cons (cfg : Config) (st : GameState) (r : ℕ) (rs : List ℕ) :
    runGen cfg st (r :: rs) = runGen cfg (stepGen cfg st r) rs := rfl

/-- Evaluation rule for one axis of the blend at concrete values. -/
theorem nextCoord_eval (a v : ℕ) (f : ℚ) (n : ℕ)
    (h1 : (n : ℚ) ≤ (a : ℚ) * (1 - f) + (v : ℚ) * f + 1/2)
    (h2 : (a : ℚ) * (1 - f) + (v : ℚ) * f + 1/2 < (n : ℚ) + 1) :
    nextCoord a v f = n := by
  unfold nextCoord
  rw [round_eq]
  have hfl : ⌊(a : ℚ) * (1 - f) + (v : ℚ) * f + 1/2⌋ = (n : ℤ) := by
    rw [Int.floor_eq_iff]
    constructor
    · exact_mod_cast h1
    · push_cast
      exact h2
  rw [hfl]
  exact Int.toNat_natCast n

/-- Evaluation rule for an accepting step at concrete values. -/
theorem stepGen_accept (cfg : Config) (st : GameState) (r : ℕ) (p : ℕ × ℕ)
    (hp : nextPoint cfg st r = p) (hm : hash_point p.1 p.2 ∉ st.keys) :
    stepGen cfg st r =
      ⟨p, st.rects ++ [p], hash_point p.1 p.2 :: st.keys, st.numRects + 1⟩ := by
  rw [stepGen_eq, hp, containsOrInsert_neg st p hm]

/-- Evaluation rule for a duplicate step at concrete values. -/
theorem stepGen_dup (cfg : Config) (st : GameState) (r : ℕ) (p : ℕ × ℕ)
    (hp : nextPoint cfg st r = p) (hm : hash_point p.1 p.2 ∈ st.keys) :
    stepGen cfg st r = ⟨p, st.rects, st.keys, st.numRects⟩ := by
  rw [stepGen_eq, hp, containsOrInsert_pos st p hm]

/-- A valid configuration on a wide screen exhibiting a hash collision with
    the initial point of the C10 counterexample run: a 65535 x 65535
    drawing area (settable through the dimensions option), 3 vertices,
    fraction 9/10. -/
def cexConfig : Config :=
  ⟨65535, 65535, 3, 9/10, [(0, 0), (22234, 0), (0, 27201)]⟩

/-- Counterexample for C10: with initial point (0, 24481), after nine die
    rolls the walk has accepted (20011, 0), whose key 20011/20011 + 0 = 1
    collides with the key 0 + 24481/24481 = 1 of the initial point; the
    tenth step computes exactly the initial coordinates again, yet the
    point is treated as a duplicate and is NOT appended a second time: it
    occurs exactly once in the buffer afterwards. -/
theorem initial_revisit_cex :
    (initState cexConfig 0 24481).rects = [(0, 24481)] ∧
    nextPoint cexConfig
        (runGen cexConfig (initState cexConfig 0 24481) [0, 0, 0, 0, 1, 0, 0, 0, 0]) 2 =
      (0, 24481) ∧
    (stepGen cexConfig
        (runGen cexConfig (initState cexConfig 0 24481) [0, 0, 0, 0, 1, 0, 0, 0, 0]) 2).rects.count
      (0, 24481) = 1 := by
  have hS0 : initState cexConfig 0 24481 =
      (⟨(0, 24481), [(0, 24481)], [], 0⟩ : GameState) := rfl
  have e1 : stepGen cexConfig ⟨(0, 24481), [(0, 24481)], [], 0⟩ 0 =
      ⟨(0, 2448), [(0, 24481), (0, 2448)], [hash_point 0 2448], 1⟩ := by
    refine stepGen_accept cexConfig _ 0 (0, 2448) ?_ ?_
    · show (nextCoord 0 0 (9/10), nextCoord 24481 0 (9/10)) = ((0 : ℕ), (2448 : ℕ))
      rw [nextCoord_eval 0 0 (9/10) 0 (by norm_num) (by norm_num),
        nextCoord_eval 24481 0 (9/10) 2448 (by norm_num) (by norm_num)]
    · simp
  have e2 : stepGen cexConfig
      ⟨(0, 2448), [(0, 24481), (0, 2448)], [hash_point 0 2448], 1⟩ 0 =
      ⟨(0, 245), [(0, 24481), (0, 2448), (0, 245)],
        [hash_point 0 245, hash_point 0 2448], 2⟩ := by
    refine stepGen_accept cexConfig _ 0 (0, 245) ?_ ?_
    · show (nextCoord 0 0 (9/10), nextCoord 2448 0 (9/10)) = ((0 : ℕ), (245 : ℕ))
      rw [nextCoord_eval 0 0 (9/10) 0 (by norm_num) (by norm_num),
        nextCoord_eval 2448 0 (9/10) 245 (by norm_num) (by norm_num)]
    · norm_num [hash_point]
  have e3 : stepGen cexConfig
      ⟨(0, 245), [(0, 24481), (0, 2448), (0, 245)],
        [hash_point 0 245, hash_point 0 2448], 2⟩ 0 =
      ⟨(0, 25), [(0, 24481), (0, 2448), (0, 245), (0, 25)],
        [hash_point 0 25, hash_point 0 245, hash_point 0 2448], 3⟩ := by
    refine stepGen_accept cexConfig _ 0 (0, 25) ?_ ?_
    · show (nextCoord 0 0 (9/10), nextCoord 245 0 (9/10)) = ((0 : ℕ), (25 : ℕ))
      rw [nextCoord_eval 0 0 (9/10) 0 (by norm_num) (by norm_num),
        nextCoord_eval 245 0 (9/10) 25 (by norm_num) (by norm_num)]
    · norm_num [hash_point]
  have e4 : stepGen cexConfig
      ⟨(0, 25), [(0, 24481), (0, 2448), (0, 245), (0, 25)],
        [hash_point 0 25, hash_point 0 245, hash_point 0 2448], 3⟩ 0 =
      ⟨(0, 3), [(0, 24481), (0, 2448), (0, 245), (0, 25), (0, 3)],
        [hash_point 0 3, hash_point 0 25, hash_point 0 245,
          hash_point 0 2448], 4⟩ := by
    refine stepGen_accept cexConfig _ 0 (0, 3) ?_ ?_
    · show (nextCoord 0 0 (9/10), nextCoord 25 0 (9/10)) = ((0 : ℕ), (3 : ℕ))
      rw [nextCoord_eval 0 0 (9/10) 0 (by norm_num) (by norm_num),
        nextCoord_eval 25 0 (9/10) 3 (by norm_num) (by norm_num)]
    · norm_num [hash_point]
  have e5 : stepGen cexConfig
      ⟨(0, 3), [(0, 24481), (0, 2448), (0, 245), (0, 25), (0, 3)],
        [hash_point 0 3, hash_point 0 25, hash_point 0 245,
          hash_point 0 2448], 4⟩ 1 =
      ⟨(20011, 0),
        [(0, 24481), (0, 2448), (0, 245), (0, 25), (0, 3), (20011, 0)],
        [hash_point 20011 0, hash_point 0 3, hash_point 0 25,
          hash_point 0 245, hash_point 0 2448], 5⟩ := by
    refine stepGen_accept cexConfig _ 1 (20011, 0) ?_ ?_
    · show (nextCoord 0 22234 (9/10), nextCoord 3 0 (9/10)) =
        ((20011 : ℕ), (0 : ℕ))
      rw [nextCoord_eval 0 22234 (9/10) 20011 (by norm_num) (by norm_num),
        nextCoord_eval 3 0 (9/10) 0 (by norm_num) (by norm_num)]
    · norm_num [hash_point]
  have e6 : stepGen cexConfig
      ⟨(20011, 0),
        [(0, 24481), (0, 2448), (0, 245), (0, 25), (0, 3), (20011, 0)],
        [hash_point 20011 0, hash_point 0 3, hash_point 0 25,
          hash_point 0 245, hash_point 0 2448], 5⟩ 0 =
      ⟨(2001, 0),
        [(0, 24481), (0, 2448), (0, 245), (0, 25), (0, 3), (20011, 0),
          (2001, 0)],
        [hash_point 2001 0, hash_point 20011 0, hash_point 0 3,
          hash_point 0 25, hash_point 0 245, hash_point 0 2448], 6⟩ := by
    refine stepGen_accept cexConfig _ 0 (2001, 0) ?_ ?_
    · show (nextCoord 20011 0 (9/10), nextCoord 0 0 (9/10)) =
        ((2001 : ℕ), (0 : ℕ))
      rw [nextCoord_eval 20011 0 (9/10) 2001 (by norm_num) (by norm_num),
        nextCoord_eval 0 0 (9/10) 0 (by norm_num) (by norm_num)]
    · norm_num [hash_point]
  have e7 : stepGen cexConfig
      ⟨(2001, 0),
        [(0, 24481), (0, 2448), (0, 245), (0, 25), (0, 3), (20011, 0),
          (2001, 0)],
        [hash_point 2001 0, hash_point 20011 0, hash_point 0 3,
          hash_point 0 25, hash_point 0 245, hash_point 0 2448], 6⟩ 0 =
      ⟨(200, 0),
        [(0, 24481), (0, 2448), (0, 245), (0, 25), (0, 3), (20011, 0),
          (2001, 0), (200, 0)],
        [hash_point 200 0, hash_point 2001 0, hash_point 20011 0,
          hash_point 0 3, hash_point 0 25, hash_point 0 245,
          hash_point 0 2448], 7⟩ := by
    refine stepGen_accept cexConfig _ 0 (200, 0) ?_ ?_
    · show (nextCoord 2001 0 (9/10), nextCoord 0 0 (9/10)) =
        ((200 : ℕ), (0 : ℕ))
      rw [nextCoord_eval 2001 0 (9/10) 200 (by norm_num) (by norm_num),
        nextCoord_eval 0 0 (9/10) 0 (by norm_num) (by norm_num)]
    · norm_num [hash_point]
  have e8 : stepGen cexConfig
      ⟨(200, 0),
        [(0, 24481), (0, 2448), (0, 245), (0, 25), (0, 3), (20011, 0),
          (2001, 0), (200, 0)],
        [hash_point 200 0, hash_point 2001 0, hash_point 20011 0,
          hash_point 0 3, hash_point 0 25, hash_point 0 245,
          hash_point 0 2448], 7⟩ 0 =
      ⟨(20, 0),
        [(0, 24481), (0, 2448), (0, 245), (0, 25), (0, 3), (20011, 0),
          (2001, 0), (200, 0), (20, 0)],
        [hash_point 20 0, hash_point 200 0, hash_point 2001 0,
          hash_point 20011 0, hash_point 0 3, hash_point 0 25,
          hash_point 0 245, hash_point 0 2448], 8⟩ := by
    refine stepGen_accept cexConfig _ 0 (20, 0) ?_ ?_
    · show (nextCoord 200 0 (9/10), nextCoord 0 0 (9/10)) =
        ((20 : ℕ), (0 : ℕ))
      rw [nextCoord_eval 200 0 (9/10) 20 (by norm_num) (by norm_num),
        nextCoord_eval 0 0 (9/10) 0 (by norm_num) (by norm_num)]
    · norm_num [hash_point]
  have e9 : stepGen cexConfig
      ⟨(20, 0),
        [(0, 24481), (0, 2448), (0, 245), (0, 25), (0, 3), (20011, 0),
          (2001, 0), (200, 0), (20, 0)],
        [hash_point 20 0, hash_point 200 0, hash_point 2001 0,
          hash_point 20011 0, hash_point 0 3, hash_point 0 25,
          hash_point 0 245, hash_point 0 2448], 8⟩ 0 =
      ⟨(2, 0),
        [(0, 24481), (0, 2448), (0, 245), (0, 25), (0, 3), (20011, 0),
          (2001, 0), (200, 0), (20, 0), (2, 0)],
        [hash_point 2 0, hash_point 20 0, hash_point 200 0,
          hash_point 2001 0, hash_point 20011 0, hash_point 0 3,
          hash_point 0 25, hash_point 0 245, hash_point 0 2448], 9⟩ := by
    refine stepGen_accept cexConfig _ 0 (2, 0) ?_ ?_
    · show (nextCoord 20 0 (9/10), nextCoord 0 0 (9/10)) =
        ((2 : ℕ), (0 : ℕ))
      rw [nextCoord_eval 20 0 (9/10) 2 (by norm_num) (by norm_num),
        nextCoord_eval 0 0 (9/10) 0 (by norm_num) (by norm_num)]
    · norm_num [hash_point]
  have hrun : runGen cexConfig (initState cexConfig 0 24481)
      [0, 0, 0, 0, 1, 0, 0, 0, 0] =
      ⟨(2, 0),
        [(0, 24481), (0, 2448), (0, 245), (0, 25), (0, 3), (20011, 0),
          (2001, 0), (200, 0), (20, 0), (2, 0)],
        [hash_point 2 0, hash_point 20 0, hash_point 200 0,
          hash_point 2001 0, hash_point 20011 0, hash_point 0 3,
          hash_point 0 25, hash_point 0 245, hash_point 0 2448], 9⟩ := by
    rw [hS0, runGen_cons, e1, runGen_cons, e2, runGen_cons, e3, runGen_cons,
      e4, runGen_cons, e5, runGen_cons, e6, runGen_cons, e7, runGen_cons, e8,
      runGen_cons, e9, runGen_nil]
  have hnp10 : nextPoint cexConfig
      ⟨(2, 0),
        [(0, 24481), (0, 2448), (0, 245), (0, 25), (0, 3), (20011, 0),
          (2001, 0), (200, 0), (20, 0), (2, 0)],
        [hash_point 2 0, hash_point 20 0, hash_point 200 0,
          hash_point 2001 0, hash_point 20011 0, hash_point 0 3,
          hash_point 0 25, hash_point 0 245, hash_point 0 2448], 9⟩ 2 =
      ((0 : ℕ), (24481 : ℕ)) := by
    show (nextCoord 2 0 (9/10), nextCoord 0 27201 (9/10)) =
      ((0 : ℕ), (24481 : ℕ))
    rw [nextCoord_eval 2 0 (9/10) 0 (by norm_num) (by norm_num),
      nextCoord_eval 0 27201 (9/10) 24481 (by norm_num) (by norm_num)]
  refine ⟨by rw [hS0], by rw [hrun, hnp10], ?_⟩
  rw [hrun, stepGen_dup cexConfig _ 2 (0, 24481) hnp10 (by norm_num [hash_point])]
  decide

/-- Amended C10: the initial point enters the buffer with no key recorded
    and without incrementing num_rects; along every run num_rects + 1
    equals the buffer length, so the batch of num_rects entries handed to
    the renderer is exactly the buffer without its most recent entry; and,
    for valid configurations on screens at most 20011 pixels wide (where
    the hash key is injective on in-bounds points, so no collision can mask
    the revisit; the uint16 default 1000 included), when the walk reaches
    the exact coordinates of the initial point, that point ends up in the
    buffer at least twice. -/
theorem initial_point_unindexed (cfg : Config) (rx ry : ℕ) :
    (initState cfg rx ry).rects = [(rx % cfg.width, ry % cfg.height)] ∧
    (initState cfg rx ry).keys = [] ∧
    (initState cfg rx ry).numRects = 0 ∧
    ∀ rolls st, Reaches cfg (initState cfg rx ry) rolls st →
      (st.numRects + 1 = st.rects.length ∧
        st.rects.take st.numRects = st.rects.dropLast) ∧
      (0 < cfg.width → 0 < cfg.height → cfg.width ≤ 20011 →
        0 < cfg.factor → cfg.factor < 1 →
        (∀ p ∈ cfg.verts, p.1 < cfg.width ∧ p.2 < cfg.height) →
        ∀ r, nextPoint cfg st r = (rx % cfg.width, ry % cfg.height) →
          2 ≤ (stepGen cfg st r).rects.count (rx % cfg.width, ry % cfg.height)) := by
  refine ⟨rfl, rfl, rfl, ?_⟩
  intro rolls st hre
  obtain ⟨hlen, t, ht, hkeys⟩ :=
    reaches_preserve (P := InvKeys (rx % cfg.width, ry % cfg.height))
      (fun s r hp => invKeys_step cfg s r hp) hre (invKeys_init cfg rx ry)
  refine ⟨⟨hlen.symm, ?_⟩, ?_⟩
  · rw [List.dropLast_eq_take, hlen]
    simp
  · intro hw hh hw2 hf0 hf1 hverts r hnext
    obtain ⟨hlast, hrect⟩ :=
      reaches_preserve (P := InvBounds cfg)
        (fun s r hp => invBounds_step cfg s r hw hh hverts
          (le_of_lt hf0) (le_of_lt hf1) hp)
        hre (invBounds_init cfg rx ry hw hh)
    by_cases hm : hash_point (nextPoint cfg st r).1 (nextPoint cfg st r).2 ∈ st.keys
    · rw [stepGen_eq, containsOrInsert_pos st _ hm]
      show 2 ≤ st.rects.count (rx % cfg.width, ry % cfg.height)
      rw [hnext] at hm
      obtain ⟨q, hq, hqh⟩ := (hkeys _).mp hm
      have hqmem : q ∈ st.rects := by
        rw [ht]
        exact List.mem_cons_of_mem _ hq
      have hqb := hrect q hqmem
      have hp0b : rx % cfg.width < cfg.width := Nat.mod_lt rx hw
      obtain ⟨he1, he2⟩ := hash_point_inj (lt_of_lt_of_le hqb.1 hw2)
        (lt_of_lt_of_le hp0b hw2) hqh
      have hq0 : q = (rx % cfg.width, ry % cfg.height) := Prod.ext he1 he2
      rw [ht, List.count_cons_self]
      have hpos : 0 < t.count (rx % cfg.width, ry % cfg.height) :=
        List.count_pos_iff.mpr (hq0 ▸ hq)
      omega
    · rw [stepGen_eq, containsOrInsert_neg st _ hm]
      show 2 ≤ (st.rects ++ [nextPoint cfg st r]).count
        (rx % cfg.width, ry % cfg.height)
      rw [hnext, ht, List.count_append, List.count_cons_self,
        List.count_cons_self, List.count_nil]
      omega

/-- A valid default-width configuration whose first step, under die roll 0,
    recomputes the initial point (0, 0) exactly: vertex 0 sits at (0, 0)
    and the blend of two equal endpoints is that endpoint. -/
def revisitConfig : Config :=
  ⟨1000, 1000, 3, 1/2, [(0, 0), (500, 25), (911, 737)]⟩

/-- Witness for C10 (amended) at concrete configurations: the bookkeeping
    clauses at the initial state, and the duplication clause at a
    default-width run whose first step revisits the initial point. -/
theorem initial_point_unindexed_witness :
    (initState revisitConfig 0 0).keys = [] ∧
      (initState revisitConfig 0 0).numRects + 1 =
        (initState revisitConfig 0 0).rects.length ∧
      2 ≤ (stepGen revisitConfig (initState revisitConfig 0 0) 0).rects.count
        (0 % revisitConfig.width, 0 % revisitConfig.height) := by
  have h := initial_point_unindexed revisitConfig 0 0
  refine ⟨h.2.1, (h.2.2.2 [] _ (Reaches.nil _)).1.1, ?_⟩
  refine (h.2.2.2 [] (initState revisitConfig 0 0) (Reaches.nil _)).2
    (by decide) (by decide) (by decide) (by norm_num [revisitConfig])
    (by norm_num [revisitConfig]) (by decide) 0 ?_
  show (nextCoord 0 0 (1/2), nextCoord 0 0 (1/2)) = ((0 : ℕ), (0 : ℕ))
  rw [nextCoord_eval 0 0 (1/2) 0 (by norm_num) (by norm_num)]

end ChaosGame
